import Mathlib

/-!
Verification development for the swaggeditor document synchronization and
mutation engine.

The Document data model (spec section 3) is a JSON/YAML-like tree of
mappings, sequences and scalars; runtime values in the source are plain
JavaScript values manipulated through lodash `get` and `set` and through
in-place mutation of nodes fetched by `get`.  The shallow embedding below
models:
  - `JValue`   : the Document tree (mappings as association lists of
                 string keys, sequences as lists, scalars);
  - `Step`     : one path step, a mapping key or a sequence index, as in
                 the spec section 9 design note (paths in the source are
                 untyped arrays of strings and numbers);
  - `lget`/`lset` : lodash `get` and `set` as used by `src/App.tsx`,
                 including lodash quirks that matter to the claims
                 (an empty path yields `undefined` for `get`, and `set`
                 with an empty path leaves the object unchanged);
  - `modifyAt` : functional rendering of the source pattern
                 `const node = get(doc, path); mutate node in place`;
  - the mutation operations `handleAddItem`, `handleRemoveItemByPath`,
    `handleToggleRequired` from `src/App.tsx`;
  - `resolveRef` from the ref-utils module and the `$ref`-chasing logic of
    `SchemaView` in `src/components/PathItem.tsx`;
  - the Sync Controller of `src/App.tsx` (`parseSpec`, the serialize
    effect, the debounced parse) as a small event-step machine
    parameterized by the external JSON/YAML parser and serializer
    behaviours.

JavaScript scalars that have no bearing on the claims (floating point
shapes, `undefined` as a stored value) are not modelled; absence is
`Option.none` throughout, as in the spec ("absence is undefined/not
found").  Operations that can throw a TypeError in JavaScript on
pathological inputs return `Option JValue` with `none` for the throw.
-/

/-- A Document tree value: mapping, sequence or scalar (spec section 3).
Mappings are association lists in insertion order; JavaScript runtime
objects always have distinct keys, which the embedding does not force on
the type but respects in the operations (first occurrence wins). -/
inductive JValue where
  | null
  | bool (b : Bool)
  | num (n : Int)
  | str (s : String)
  | arr (elts : List JValue)
  | obj (fields : List (String × JValue))

mutual

/-- Structural equality on Document values. -/
def beqJ : JValue → JValue → Bool
  | .null, .null => true
  | .bool a, .bool b => a == b
  | .num a, .num b => a == b
  | .str a, .str b => a == b
  | .arr xs, .arr ys => beqL xs ys
  | .obj m, .obj m' => beqF m m'
  | _, _ => false

/-- Structural equality on sequences of Document values. -/
def beqL : List JValue → List JValue → Bool
  | [], [] => true
  | x :: xs, y :: ys => beqJ x y && beqL xs ys
  | _, _ => false

/-- Structural equality on mapping fields. -/
def beqF : List (String × JValue) → List (String × JValue) → Bool
  | [], [] => true
  | (k, v) :: m, (k', v') :: m' => k == k' && beqJ v v' && beqF m m'
  | _, _ => false

end

mutual

theorem beqJ_iff : ∀ a b, beqJ a b = true ↔ a = b
  | .null, b => by cases b <;> simp [beqJ]
  | .bool x, b => by cases b <;> simp [beqJ]
  | .num x, b => by cases b <;> simp [beqJ]
  | .str x, b => by cases b <;> simp [beqJ]
  | .arr xs, b => by
      cases b
      case arr ys => simpa [beqJ] using beqL_iff xs ys
      all_goals simp [beqJ]
  | .obj m, b => by
      cases b
      case obj m' => simpa [beqJ] using beqF_iff m m'
      all_goals simp [beqJ]

theorem beqL_iff : ∀ xs ys, beqL xs ys = true ↔ xs = ys
  | [], ys => by cases ys <;> simp [beqL]
  | x :: xs, ys => by
      cases ys with
      | nil => simp [beqL]
      | cons y ys =>
          simp [beqL, beqJ_iff x y, beqL_iff xs ys]

theorem beqF_iff : ∀ m m', beqF m m' = true ↔ m = m'
  | [], m' => by cases m' <;> simp [beqF]
  | (k, v) :: m, m' => by
      cases m' with
      | nil => simp [beqF]
      | cons kv' m' =>
          obtain ⟨k', v'⟩ := kv'
          simp [beqF, beqJ_iff v v', beqF_iff m m', and_assoc]

end

instance : DecidableEq JValue := fun a b => decidable_of_iff _ (beqJ_iff a b)

instance : BEq JValue := ⟨beqJ⟩

theorem jvalue_beq_iff (a b : JValue) : (a == b) = true ↔ a = b := beqJ_iff a b

/-- One path step: a mapping key or a sequence index (spec section 9:
tagged two-variant step type for the untyped string/number steps of the
source). -/
inductive Step where
  | key (s : String)
  | idx (n : Nat)
deriving DecidableEq

/-- Look a key up in a mapping: JavaScript property read `m[k]`. -/
def lookupField : List (String × JValue) → String → Option JValue
  | [], _ => none
  | (k', v) :: rest, k => if k' = k then some v else lookupField rest k

/-- JavaScript property write `m[k] = v`: replaces the value of an
existing key in place (keeping its position), otherwise appends. -/
def setField : List (String × JValue) → String → JValue → List (String × JValue)
  | [], k, v => [(k, v)]
  | (k', v') :: rest, k, v =>
      if k' = k then (k, v) :: rest else (k', v') :: setField rest k v

/-- JavaScript `delete m[k]`. -/
def eraseField (m : List (String × JValue)) (k : String) : List (String × JValue) :=
  m.filter (fun kv => kv.1 ≠ k)

/-- A string is a canonical array index ("2" but not "02", "+2", " 2"):
JavaScript array element access by string key applies to exactly these
(all digits, no leading zero except "0" itself). -/
def natOfKey (s : String) : Option Nat :=
  match s.data with
  | [] => none
  | c :: cs =>
      if (c :: cs).all Char.isDigit then
        if c = '0' ∧ cs ≠ [] then none
        else some ((c :: cs).foldl (fun acc d => acc * 10 + (d.toNat - 48)) 0)
      else none

/-- The property key a step denotes on a mapping: JavaScript converts
numeric steps to their decimal string. -/
def keyOfStep : Step → String
  | .key s => s
  | .idx n => toString n

/-- The element index a step denotes on a sequence, when it denotes one. -/
def arrStepIdx : Step → Option Nat
  | .idx n => some n
  | .key k => natOfKey k

/-- One lodash `get` step: property read on a mapping, element read on a
sequence.  Scalars have no addressable children in the Document model
(spec section 3: scalars are leaves). -/
def stepInto : JValue → Step → Option JValue
  | .obj m, s => lookupField m (keyOfStep s)
  | .arr xs, s =>
      match arrStepIdx s with
      | some n => xs.get? n
      | none => none
  | _, _ => none

/-- Walk a whole path from a node (the loop inside lodash `baseGet`). -/
def walkPath : JValue → List Step → Option JValue
  | v, [] => some v
  | v, s :: rest =>
      match stepInto v s with
      | some c => walkPath c rest
      | none => none

/-- lodash `get(doc, path)`.  lodash `baseGet` returns `undefined` for an
empty path (its final check `index && index == length` fails at zero), a
quirk that matters to `handleRemoveItemByPath`. -/
def lget (v : JValue) (p : List Step) : Option JValue :=
  match p with
  | [] => none
  | _ => walkPath v p

/-- Containers in the lodash `isObject` sense (mappings and sequences). -/
def isContainer : JValue → Bool
  | .obj _ => true
  | .arr _ => true
  | _ => false

/-- The fresh intermediate container lodash `set` creates for a missing
step: a sequence when the next step is an index (lodash `isIndex`),
otherwise a mapping. -/
def freshContainer : List Step → JValue
  | .idx _ :: _ => .arr []
  | .key k :: _ =>
      match natOfKey k with
      | some _ => .arr []
      | none => .obj []
  | [] => .obj []

/-- JavaScript `xs[n] = v` on an array: in-range assignment replaces the
element; past-the-end assignment pads the gap (holes, modelled as null,
which is how they serialize). -/
def setIdx (xs : List JValue) (n : Nat) (v : JValue) : List JValue :=
  if n < xs.length then xs.set n v
  else xs ++ List.replicate (n - xs.length) JValue.null ++ [v]

/-- The recursive body of lodash `set`: walks the path, reusing an
existing container at each step and replacing a scalar or missing
intermediate by a fresh container, then assigns at the last step.
A non-index key on a sequence becomes a JavaScript expando property,
invisible to the JSON document, modelled as no change; a scalar root is
returned unchanged (lodash `baseSet` rejects non-objects). -/
def lsetGo : JValue → List Step → JValue → JValue
  | v, [], _ => v
  | .obj m, s :: rest, nv =>
      let child :=
        if rest.isEmpty then nv
        else
          lsetGo (match lookupField m (keyOfStep s) with
                  | some c => if isContainer c then c else freshContainer rest
                  | none => freshContainer rest) rest nv
      .obj (setField m (keyOfStep s) child)
  | .arr xs, s :: rest, nv =>
      match arrStepIdx s with
      | some n =>
          let child :=
            if rest.isEmpty then nv
            else
              lsetGo (match xs.get? n with
                      | some c => if isContainer c then c else freshContainer rest
                      | none => freshContainer rest) rest nv
          .arr (setIdx xs n child)
      | none => .arr xs
  | v, _ :: _, _ => v

/-- lodash `set(doc, path, v)` (an empty path leaves the document
unchanged: the `baseSet` loop body never runs). -/
def lset (v : JValue) (p : List Step) (nv : JValue) : JValue :=
  match p with
  | [] => v
  | _ => lsetGo v p nv

/-- Functional rendering of the source pattern
`const node = get(doc, path); mutate node in place`: rebuild the document
with the node at the path replaced by `f node`; where the path does not
resolve, the in-place mutation never happens and the document is
unchanged. -/
def modifyAt : JValue → List Step → (JValue → JValue) → JValue
  | v, [], f => f v
  | .obj m, s :: rest, f =>
      match lookupField m (keyOfStep s) with
      | some c => .obj (setField m (keyOfStep s) (modifyAt c rest f))
      | none => .obj m
  | .arr xs, s :: rest, f =>
      match arrStepIdx s with
      | some n =>
          match xs.get? n with
          | some c => .arr (xs.set n (modifyAt c rest f))
          | none => .arr xs
      | none => .arr xs
  | v, _ :: _, _ => v

/-!
## Mutation Engine (`src/App.tsx`)

Each operation deep-copies the snapshot and edits the copy; the embedding
is functional, so the deep copy is implicit.  Operations that can throw a
TypeError in JavaScript on pathological payloads return `Option JValue`,
`none` standing for the throw.
-/

/-- JavaScript falsiness of a stored value (`undefined`, i.e. an absent
field, is handled separately by callers). -/
def jsFalsy : JValue → Bool
  | .null => true
  | .bool bb => !bb
  | .num n => n == 0
  | .str s => s == ""
  | _ => false

/-- JavaScript truthiness of a stored value. -/
def jsTruthy (v : JValue) : Bool := !jsFalsy v

/-- JavaScript `Array.prototype.indexOf` probing for a value: index of the
first strictly-equal element.  The engine only ever probes with a string,
for which strict equality coincides with structural equality. -/
def jsIndexOf (k : JValue) : List JValue → Option Nat
  | [] => none
  | x :: rest => if x == k then some 0 else (jsIndexOf k rest).map (· + 1)

/-- `Object.keys(item)[0]` / `Object.values(item)[0]` as used by
`handleAddItem`: the first own enumerable entry of the payload.
`none` models the TypeError thrown by `Object.keys(null)`;
`some none` models a payload with no entries (the subsequent
`collection[undefined] = undefined` creates a JSON-invisible property,
so the visible document is unchanged); strings enumerate their
characters, numbers and booleans have no keys. -/
def jsFirstEntry : JValue → Option (Option (String × JValue))
  | .null => none
  | .obj [] => some none
  | .obj (kv :: _) => some (some kv)
  | .arr [] => some none
  | .arr (x :: _) => some (some ("0", x))
  | .str s =>
      if s = "" then some none
      else some (some ("0", .str (String.singleton s.front)))
  | _ => some none

/-- A small model of JavaScript `Number(string)`: whitespace-trimmed
decimal integers, the empty string converting to 0, anything else NaN
(`none`).  Exotic forms (hex, exponents, fractions) are not modelled;
no claim exercises them. -/
def jsStringToNumber (s : String) : Option Int :=
  let t := s.trim
  if t = "" then some 0 else t.toInt?

/-- `Number(itemKey)` for a path step (`none` = NaN). -/
def jsNumberOfStep : Step → Option Int
  | .idx n => some n
  | .key s => jsStringToNumber s

/-- JavaScript `xs.splice(start, 1)`: NaN start is treated as 0, negative
start counts from the end, start at or past the length removes
nothing. -/
def jsSplice1 (xs : List JValue) (n : Option Int) : List JValue :=
  let len : Int := xs.length
  let start : Int :=
    match n with
    | none => 0
    | some i => if i < 0 then max (len + i) 0 else min i len
  let s := start.toNat
  xs.take s ++ xs.drop (s + 1)

/-- `handleAddItem` (src/App.tsx lines 102-121): if the location is
absent, `set` a wrapped item there and re-`get`; then push onto a
sequence collection, or merge the first entry of the payload into a
mapping collection.  `none` models the TypeError of `Object.keys(null)`
on a mapping collection. -/
def handleAddItem (d : JValue) (path : List Step) (item : JValue) : Option JValue :=
  let d1 :=
    match lget d path with
    | none =>
        lset d path (match item with
                     | .arr xs => .arr xs
                     | _ => .arr [item])
    | some _ => d
  match lget d1 path with
  | some (.arr xs) => some (modifyAt d1 path (fun _ => .arr (xs ++ [item])))
  | some (.obj m) =>
      match jsFirstEntry item with
      | none => none
      | some none => some d1
      | some (some (k, v)) => some (modifyAt d1 path (fun _ => .obj (setField m k v)))
  | _ => some d1

/-- `handleRemoveItemByPath` (src/App.tsx lines 123-137): split the path
into parent and last step, `splice` on a sequence parent, `delete` on a
mapping parent, otherwise do nothing.  Note `get(doc, [])` is
`undefined` in lodash, so a single-step path always hits the do-nothing
branch. -/
def handleRemoveItemByPath (d : JValue) (path : List Step) : JValue :=
  match path.getLast? with
  | none => d
  | some itemKey =>
      let parentPath := path.dropLast
      match lget d parentPath with
      | some (.arr xs) =>
          modifyAt d parentPath (fun _ => .arr (jsSplice1 xs (jsNumberOfStep itemKey)))
      | some (.obj m) =>
          modifyAt d parentPath (fun _ => .obj (eraseField m (keyOfStep itemKey)))
      | _ => d

/-- The list-level toggle of `handleToggleRequired`: `indexOf` the key,
`push` it when making required and absent, `splice` it out when making
optional and present. -/
def toggledList (xs : List JValue) (k : String) (b : Bool) : List JValue :=
  match b, jsIndexOf (JValue.str k) xs with
  | true, none => xs ++ [JValue.str k]
  | false, some i => xs.eraseIdx i
  | _, _ => xs

/-- The array portion of `handleToggleRequired` once `schema.required`
holds (or has just been assigned) an array `xs`: toggle the list, then
delete the field when the array ends up empty, otherwise store it
back (in place for an existing field, appended for a fresh one). -/
def toggleOnArray (d : JValue) (p : List Step) (m : List (String × JValue))
    (xs : List JValue) (k : String) (b : Bool) : JValue :=
  let xs' := toggledList xs k b
  let m' :=
    if xs'.isEmpty then eraseField m "required"
    else setField m "required" (JValue.arr xs')
  modifyAt d p (fun _ => JValue.obj m')

/-- A truthy-string `required` field: `indexOf` is substring search on
strings; used by `handleToggleRequired` when the document carries a
nonempty string where the Required-set should be. -/
def jsStrIndexOf (s k : String) : Option Nat :=
  (List.range (s.length + 1)).find? (fun i => (s.drop i).startsWith k)

/-- `handleToggleRequired` (src/App.tsx lines 154-179).  The guard
`schema && typeof schema === 'object'` admits mappings and sequences; on
a sequence the `required` expando property is JSON-invisible, so the
visible document is unchanged.  A falsy `required` value is replaced by
a fresh empty array (the `if (!schema.required)` guard); a truthy
non-array value flows into the string methods, whose JavaScript
behaviour (substring `indexOf`, TypeError on `push`/`splice`) is
modelled below, `none` standing for the throw. -/
def handleToggleRequired (d : JValue) (p : List Step) (k : String) (b : Bool) :
    Option JValue :=
  match lget d p with
  | some (.obj m) =>
      match lookupField m "required" with
      | none => some (toggleOnArray d p m [] k b)
      | some v =>
          if jsFalsy v then some (toggleOnArray d p m [] k b)
          else
            match v with
            | .arr xs => some (toggleOnArray d p m xs k b)
            | .str s =>
                match jsStrIndexOf s k with
                | none => if b then none else some d
                | some _ => if b then some d else none
            | _ => none
  | _ => some d

/-!
## Reference Resolver (`src/unnamed/part_001`, ref utilities) and the
`$ref`-chasing recursion of `SchemaView` (`src/components/PathItem.tsx`)
-/

/-- Whether a character list begins with another (JavaScript
`String.prototype.startsWith`, over the characters of the strings;
identical to the code-unit comparison of JavaScript on the ASCII
references involved). -/
def startsWithAux : List Char → List Char → Bool
  | [], _ => true
  | _ :: _, [] => false
  | p :: ps, c :: cs => (p = c) && startsWithAux ps cs

/-- JavaScript `s.startsWith(pre)`. -/
def jsStartsWith (s pre : String) : Bool := startsWithAux pre.data s.data

/-- JavaScript `String.prototype.split` on a single-character separator,
over the characters: `"".split('/')` is `[""]`, `"a//b".split('/')` is
`["a", "", "b"]`. -/
def splitCharAux (c : Char) : List Char → List (List Char)
  | [] => [[]]
  | x :: rest =>
      let r := splitCharAux c rest
      if x = c then [] :: r
      else
        match r with
        | h :: t => (x :: h) :: t
        | [] => [[x]]

/-- JavaScript `s.split(c)` for a one-character separator. -/
def jsSplitChar (s : String) (c : Char) : List String :=
  (splitCharAux c s.data).map (fun l => String.mk l)

/-- JavaScript `s.substring(2)`. -/
def jsDrop2 (s : String) : String := String.mk (s.data.drop 2)

/-- The steps named by a root-relative reference: the text after the
`#/` prefix split on `/` (JavaScript `ref.substring(2).split('/')`). -/
def refSteps (ref : String) : List Step :=
  (jsSplitChar (jsDrop2 ref) '/').map Step.key

/-- `resolveRef` (ref utilities): reject references without the
internal-root-relative prefix, otherwise a root-relative lodash `get`
with `null` standing for a missing location.  Pure: the document is
only read. -/
def resolveRef (spec : JValue) (ref : String) : Option JValue :=
  if jsStartsWith ref "#/" then lget spec (refSteps ref) else none

/-- `schemaPathFromRef` (ref utilities): the canonical edit path of a
reference. -/
def schemaPathFromRef (ref : String) : List Step :=
  if jsStartsWith ref "#/" then refSteps ref else []

mutual

/-- All string scalars occurring in a value (used to bound the length of
a `$ref` chain: every reference string followed from inside the document
occurs in the document). -/
def strsIn : JValue → List String
  | .str s => [s]
  | .arr xs => strsInList xs
  | .obj m => strsInFields m
  | _ => []

/-- All string scalars occurring in a sequence. -/
def strsInList : List JValue → List String
  | [] => []
  | v :: vs => strsIn v ++ strsInList vs

/-- All string scalars occurring in mapping fields. -/
def strsInFields : List (String × JValue) → List String
  | [] => []
  | (_, v) :: rest => strsIn v ++ strsInFields rest

end

/-- The `$ref` field of a schema node, when present with a string value
(the `'$ref' in schema` branch of `SchemaView`). -/
def getRef : JValue → Option String
  | .obj m =>
      match lookupField m "$ref" with
      | some (.str r) => some r
      | _ => none
  | _ => none

theorem strsIn_subset_of_mem_list {v : JValue} {xs : List JValue}
    (h : v ∈ xs) : strsIn v ⊆ strsInList xs := by
  induction xs with
  | nil => cases h
  | cons x xs ih =>
      rcases List.mem_cons.mp h with rfl | h
      · simp [strsInList, List.subset_append_left]
      · exact (ih h).trans (by simp [strsInList])

theorem strsIn_subset_of_mem_fields {k : String} {v : JValue}
    {m : List (String × JValue)} (h : (k, v) ∈ m) :
    strsIn v ⊆ strsInFields m := by
  induction m with
  | nil => cases h
  | cons kv m ih =>
      obtain ⟨k', v'⟩ := kv
      rcases List.mem_cons.mp h with heq | h
      · cases heq
        simp [strsInFields, List.subset_append_left]
      · exact (ih h).trans (by simp [strsInFields])

theorem lookupField_mem {m : List (String × JValue)} {k : String} {v : JValue}
    (h : lookupField m k = some v) : (k, v) ∈ m := by
  induction m with
  | nil => simp [lookupField] at h
  | cons kv m ih =>
      obtain ⟨k', v'⟩ := kv
      by_cases hk : k' = k
      · subst hk
        simp [lookupField] at h
        subst h
        exact List.mem_cons_self _ _
      · simp [lookupField, hk] at h
        exact List.mem_cons_of_mem _ (ih h)

theorem stepInto_strs {v c : JValue} {s : Step}
    (h : stepInto v s = some c) : strsIn c ⊆ strsIn v := by
  cases v with
  | obj m =>
      simp only [stepInto] at h
      exact (strsIn_subset_of_mem_fields (lookupField_mem h)).trans
        (by simp [strsIn])
  | arr xs =>
      simp only [stepInto] at h
      rcases hn : arrStepIdx s with _ | n <;> rw [hn] at h
      · cases h
      · exact (strsIn_subset_of_mem_list (List.get?_mem h)).trans
          (by simp [strsIn])
  | null => cases h
  | bool b => cases h
  | num n => cases h
  | str s => cases h

theorem walkPath_strs {p : List Step} : ∀ {v c : JValue},
    walkPath v p = some c → strsIn c ⊆ strsIn v := by
  induction p with
  | nil =>
      intro v c h
      cases h
      exact fun a ha => ha
  | cons s rest ih =>
      intro v c h
      simp only [walkPath] at h
      rcases hs : stepInto v s with _ | c0 <;> rw [hs] at h
      · cases h
      · exact (ih h).trans (stepInto_strs hs)

theorem resolveRef_strs {spec node : JValue} {r : String}
    (h : resolveRef spec r = some node) : strsIn node ⊆ strsIn spec := by
  simp only [resolveRef] at h
  split at h
  · simp only [lget] at h
    split at h
    · cases h
    · exact walkPath_strs h
  · cases h

theorem getRef_mem_strs {v : JValue} {r : String}
    (h : getRef v = some r) : r ∈ strsIn v := by
  cases v with
  | obj m =>
      simp only [getRef] at h
      rcases hl : lookupField m "$ref" with _ | w <;> rw [hl] at h
      · cases h
      · cases w <;> simp at h
        subst h
        exact strsIn_subset_of_mem_fields (lookupField_mem hl) (by simp [strsIn])
  | null => cases h
  | bool b => cases h
  | num n => cases h
  | str s => cases h
  | arr xs => cases h

/-- How many string scalars of the document are not yet in the visited
set: the potential of a resolution chain. -/
def missingRefs (spec : JValue) (visited : List String) : Nat :=
  ((strsIn spec).filter (fun s => !(visited.contains s))).length

theorem filter_length_mono {α : Type} (l : List α) (p q : α → Bool)
    (h : ∀ a, p a = true → q a = true) :
    (l.filter p).length ≤ (l.filter q).length := by
  induction l with
  | nil => simp
  | cons a l ih =>
      by_cases hp : p a = true
      · simp [List.filter, hp, h a hp]
        omega
      · simp only [List.filter, Bool.not_eq_true] at hp ⊢
        rw [hp]
        rcases hq : q a <;> simp <;> omega

theorem visitedExt_pred {visited : List String} {r a : String}
    (ha : (!((visited ++ [r]).contains a)) = true) :
    (!(visited.contains a)) = true := by
  have ha' : a ∉ visited ++ [r] := by simpa using ha
  have : a ∉ visited := fun hm => ha' (List.mem_append.mpr (Or.inl hm))
  simpa using this

theorem missingRefs_mono (spec : JValue) (visited : List String) (r : String) :
    missingRefs spec (visited ++ [r]) ≤ missingRefs spec visited :=
  filter_length_mono _ _ _ (fun _ ha => visitedExt_pred ha)

theorem filter_length_lt_of_mem {l visited : List String} {r : String}
    (hr : r ∈ l) (hv : ¬ r ∈ visited) :
    (l.filter (fun s => !((visited ++ [r]).contains s))).length <
      (l.filter (fun s => !(visited.contains s))).length := by
  induction l with
  | nil => cases hr
  | cons a l ih =>
      by_cases ha : a = r
      · subst ha
        have e1 : (!((visited ++ [a]).contains a)) = false := by
          simp
        have e2 : (!(visited.contains a)) = true := by
          simpa using hv
        simp only [List.filter, e1, e2]
        have := filter_length_mono l
          (fun s => !((visited ++ [a]).contains s))
          (fun s => !(visited.contains s))
          (fun _ hx => visitedExt_pred hx)
        simp only [List.length_cons]
        omega
      · have hr' : r ∈ l := by
          rcases List.mem_cons.mp hr with h | h
          · exact absurd h.symm ha
          · exact h
        have heq : (!((visited ++ [r]).contains a)) = (!(visited.contains a)) := by
          by_cases hm : a ∈ visited
          · have p1 : a ∈ visited ++ [r] := List.mem_append.mpr (Or.inl hm)
            simp [hm, p1]
          · have p1 : a ∉ visited ++ [r] := by
              intro hc
              rcases List.mem_append.mp hc with h | h
              · exact hm h
              · exact ha (List.mem_singleton.mp h)
            simp [hm, p1]
        rcases hb : (!(visited.contains a)) with _ | _ <;>
          rw [hb] at heq <;>
          simp only [List.filter, heq, hb] <;>
          [skip; skip]
        · exact ih hr'
        · simpa using Nat.succ_lt_succ (ih hr')

theorem missingRefs_lt (spec : JValue) (visited : List String) (r : String)
    (hr : r ∈ strsIn spec) (hv : ¬ r ∈ visited) :
    missingRefs spec (visited ++ [r]) < missingRefs spec visited :=
  filter_length_lt_of_mem hr hv

/-- What rendering a schema node produces, seen through the reference
logic of `SchemaView`: a terminal circular-reference notice, a terminal
invalid-reference notice, or the (non-reference) schema finally
rendered. -/
inductive RenderResult where
  | circular (ref : String)
  | invalidRef (ref : String)
  | rendered (schema : JValue)
deriving DecidableEq

/-- The extra potential of a chain head whose reference string does not
occur in the document (every resolved node is a subterm of the document,
so this can only be nonzero at the top of a chain). -/
def refExtra (spec schema : JValue) : Nat :=
  match getRef schema with
  | some r => if (strsIn spec).contains r then 0 else 1
  | none => 0

theorem refExtra_le_one (spec schema : JValue) : refExtra spec schema ≤ 1 := by
  unfold refExtra
  split
  · split <;> omega
  · omega

/-- Termination measure for the `$ref`-chasing recursion: strings of the
document not yet visited (doubled), plus the chain-head potential. -/
def svMeasure (spec schema : JValue) (visited : List String) : Nat :=
  2 * missingRefs spec visited + refExtra spec schema

/-- The `$ref`-chasing recursion of `SchemaView`
(src/components/PathItem.tsx lines 372-400): a reference already in
`visitedRefs` renders the terminal circular notice; an unresolvable
reference renders the terminal invalid notice; otherwise the resolved
node is rendered with the reference appended to `visitedRefs`.  The
definition is total: the recursion terminates on every input, which is
the formal content of the no-unbounded-recursion requirement. -/
def schemaView (spec schema : JValue) (visited : List String) : RenderResult :=
  match h : getRef schema with
  | none => .rendered schema
  | some r =>
      if hv : visited.contains r then .circular r
      else
        match hr : resolveRef spec r with
        | none => .invalidRef r
        | some node => schemaView spec node (visited ++ [r])
termination_by svMeasure spec schema visited
decreasing_by
  have hvm : ¬ r ∈ visited := fun hm => hv (List.elem_iff.mpr hm)
  have hnode : refExtra spec node = 0 := by
    rcases hgr : getRef node with _ | r'
    · simp [refExtra, hgr]
    · have hr' : r' ∈ strsIn spec := resolveRef_strs hr (getRef_mem_strs hgr)
      simp [refExtra, hgr, hr']
  simp only [svMeasure, hnode]
  by_cases hc : r ∈ strsIn spec
  · have hlt := missingRefs_lt spec visited r hc hvm
    have h1 : refExtra spec schema ≤ 1 := refExtra_le_one spec schema
    omega
  · have hle := missingRefs_mono spec visited r
    have h1 : refExtra spec schema = 1 := by
      unfold refExtra
      rw [h]
      simp [hc]
    omega

/-!
## Sync Controller (`src/App.tsx`)

`parseSpec`, the serialize effect and the debounced parse are modelled as
a small event-step machine.  The external JSON and YAML parsers and the
two serializers are opaque parameters (a `Parsers` record): the
controller logic never inspects the text itself, only the parser
results, so every claim about the controller holds for arbitrary parser
behaviour, and counterexamples instantiate the parameters with
behaviours the real `JSON.parse`, `js-yaml` `load` and `dump` exhibit on
the concrete strings involved.
-/

/-- Which textual syntax last produced the Document (the Format tag). -/
inductive Format where
  | json
  | yaml
deriving DecidableEq

/-- The JavaScript `typeof x === 'object' && x !== null` test used by the
YAML branch of `parseSpec`: true for mappings and sequences, false for
all scalars including null. -/
def isJsObject : JValue → Bool
  | .obj _ => true
  | .arr _ => true
  | _ => false

/-- `yamlError.message || 'Invalid YAML or JSON format.'`: an empty
message falls back to the generic text, so the surfaced error is never
empty. -/
def jsErrMessage (m : String) : String :=
  if m = "" then "Invalid YAML or JSON format." else m

/-- The mutable state of the controller: the five React state cells plus
the `isUpdatingFromView` ref and the pending debounced parse (the text
the coalescing window will hand to `parseSpec` when it elapses). -/
structure SyncState where
  specString : String
  parsedSpec : Option JValue
  parseError : Option String
  specFormat : Format
  isUpdatingFromView : Bool
  pending : Option String
deriving DecidableEq

/-- The parse cascade of `parseSpec` (src/App.tsx lines 49-67), applied
to the outcomes of the two external parsers on the current text:
strict JSON first; on its failure the YAML parser, whose non-object
results (including null) are converted to a thrown-then-caught error;
on failure of both the parsed Document is set to null and the error
message surfaced.  The Format tag is only written on success. -/
def applyParse (s : SyncState) (jres : Option JValue) (yres : Except String JValue) :
    SyncState :=
  match jres with
  | some v => { s with parsedSpec := some v, parseError := none, specFormat := .json }
  | none =>
      match yres with
      | .ok v =>
          if isJsObject v then
            { s with parsedSpec := some v, parseError := none, specFormat := .yaml }
          else
            { s with parsedSpec := none,
                     parseError := some "Invalid YAML: content must be an object." }
      | .error m =>
          { s with parsedSpec := none, parseError := some (jsErrMessage m) }

/-- One invocation of `parseSpec` (src/App.tsx lines 44-68) on the
outcomes of the external parsers: an armed suppression flag consumes the
invocation without re-parsing and is cleared; otherwise the parse
cascade runs. -/
def parseSpecStep (s : SyncState) (jres : Option JValue) (yres : Except String JValue) :
    SyncState :=
  if s.isUpdatingFromView then { s with isUpdatingFromView := false }
  else applyParse s jres yres

/-- The external parser and serializer behaviours the controller is wired
to (`JSON.parse`, `yaml.load`, `JSON.stringify(.,null,2)`,
`yaml.dump`).  `jsonParse` returning `none` models a `JSON.parse`
throw; `yamlLoad` returning an error models a `yaml.load` throw with
that message. -/
structure Parsers where
  jsonParse : String → Option JValue
  yamlLoad : String → Except String JValue
  dumpJson : JValue → String
  dumpYaml : JValue → String

/-- The serialize effect (src/App.tsx lines 76-91): on a Document
change, when the Document is truthy, arm the suppression flag and
publish the serialized text in the current format; publishing the text
triggers the text-change effect, which schedules a debounced parse of
the published text (replacing any pending one).  A falsy Document (the
`if (!parsedSpec) return`) leaves everything unchanged. -/
def serializeEffect (P : Parsers) (s : SyncState) : SyncState :=
  match s.parsedSpec with
  | some v =>
      if jsTruthy v then
        let t := match s.specFormat with
                 | .yaml => P.dumpYaml v
                 | .json => P.dumpJson v
        { s with isUpdatingFromView := true, specString := t, pending := some t }
      else s
  | none => s

/-- The observable events driving the controller: a raw text edit (which
republishes the text and schedules a coalesced parse of it, replacing
any pending one), the elapse of the coalescing window (which hands the
pending text to `parseSpec`), and a structural edit from the form
surface (which replaces the Document synchronously and triggers the
serialize effect). -/
inductive Ev where
  | edit (t : String)
  | fire
  | view (f : JValue → JValue)

/-- One controller step.  On `fire`, a successful parse replaces the
Document, which runs the serialize effect; a failed parse sets the
Document to null, on which the serialize effect is a no-op, so composing
it unconditionally is faithful.  On `view`, the updater
`spec => !spec ? null : mutate(spec)` runs and the serialize effect
follows the Document change. -/
def stepM (P : Parsers) (s : SyncState) : Ev → SyncState
  | .edit t => { s with specString := t, pending := some t }
  | .fire =>
      match s.pending with
      | none => s
      | some t =>
          let s1 := { s with pending := none }
          if s1.isUpdatingFromView then { s1 with isUpdatingFromView := false }
          else serializeEffect P (applyParse s1 (P.jsonParse t) (P.yamlLoad t))
  | .view f =>
      match s.parsedSpec with
      | some v =>
          if jsTruthy v then serializeEffect P { s with parsedSpec := some (f v) }
          else { s with parsedSpec := none }
      | none => s

/-- Run a sequence of controller events. -/
def runM (P : Parsers) (s : SyncState) (evs : List Ev) : SyncState :=
  evs.foldl (stepM P) s

/-!
## Lemmas about fields, elements and path rewriting
-/

theorem lookup_setField_self (m : List (String × JValue)) (k : String) (v : JValue) :
    lookupField (setField m k v) k = some v := by
  induction m with
  | nil => simp [setField, lookupField]
  | cons kv m ih =>
      obtain ⟨k', v'⟩ := kv
      by_cases h : k' = k
      · subst h
        simp [setField, lookupField]
      · simp [setField, lookupField, h, ih]

theorem setField_setField (m : List (String × JValue)) (k : String) (v w : JValue) :
    setField (setField m k v) k w = setField m k w := by
  induction m with
  | nil => simp [setField]
  | cons kv m ih =>
      obtain ⟨k', v'⟩ := kv
      by_cases h : k' = k
      · subst h
        simp [setField]
      · simp [setField, h, ih]

theorem lookup_eraseField (m : List (String × JValue)) (k : String) :
    lookupField (eraseField m k) k = none := by
  induction m with
  | nil => simp [eraseField, lookupField]
  | cons kv m ih =>
      obtain ⟨k', v'⟩ := kv
      by_cases h : k' = k
      · subst h
        simpa [eraseField, List.filter_cons] using ih
      · simpa [eraseField, List.filter_cons, h, lookupField] using ih

theorem eraseField_of_lookup_none {m : List (String × JValue)} {k : String}
    (h : lookupField m k = none) : eraseField m k = m := by
  induction m with
  | nil => simp [eraseField]
  | cons kv m ih =>
      obtain ⟨k', v'⟩ := kv
      by_cases hk : k' = k
      · subst hk
        simp [lookupField] at h
      · simp [lookupField, hk] at h
        simp [eraseField, List.filter_cons, hk] at ih ⊢
        exact ih h

theorem get?_set_self {α : Type} {l : List α} {n : Nat} {c : α} (a : α)
    (h : l.get? n = some c) : (l.set n a).get? n = some a := by
  induction l generalizing n with
  | nil => simp at h
  | cons x l ih =>
      cases n with
      | zero => simp
      | succ n =>
          simp only [List.get?_cons_succ] at h
          simpa using ih h

theorem walk_modify : ∀ (p : List Step) {v c : JValue} (f : JValue → JValue),
    walkPath v p = some c → walkPath (modifyAt v p f) p = some (f c)
  | [], v, c, f, h => by
      cases h
      simp [walkPath, modifyAt]
  | s :: rest, v, c, f, h => by
      cases v with
      | obj m =>
          simp only [walkPath, stepInto] at h
          rcases hl : lookupField m (keyOfStep s) with _ | c0 <;> simp only [hl] at h
          · cases h
          · simp only [modifyAt, hl, walkPath, stepInto,
              lookup_setField_self]
            exact walk_modify rest f h
      | arr xs =>
          simp only [walkPath, stepInto] at h
          rcases hn : arrStepIdx s with _ | n <;> simp only [hn] at h
          · cases h
          · rcases hg : xs.get? n with _ | c0 <;> simp only [hg] at h
            · cases h
            · simp only [modifyAt, hn, hg, walkPath, stepInto,
                get?_set_self _ hg]
              exact walk_modify rest f h
      | null => simp [walkPath, stepInto] at h
      | bool b => simp [walkPath, stepInto] at h
      | num n => simp [walkPath, stepInto] at h
      | str sc => simp [walkPath, stepInto] at h

theorem modify_modify_const : ∀ (p : List Step) {v c : JValue} (x : JValue),
    walkPath v p = some c →
    modifyAt (modifyAt v p (fun _ => x)) p (fun _ => x) = modifyAt v p (fun _ => x)
  | [], v, c, x, h => by
      cases h
      simp [modifyAt]
  | s :: rest, v, c, x, h => by
      cases v with
      | obj m =>
          simp only [walkPath, stepInto] at h
          rcases hl : lookupField m (keyOfStep s) with _ | c0 <;> simp only [hl] at h
          · cases h
          · simp only [modifyAt, hl, lookup_setField_self]
            rw [modify_modify_const rest x h, setField_setField]
      | arr xs =>
          simp only [walkPath, stepInto] at h
          rcases hn : arrStepIdx s with _ | n <;> simp only [hn] at h
          · cases h
          · rcases hg : xs.get? n with _ | c0 <;> simp only [hg] at h
            · cases h
            · simp only [modifyAt, hn, hg, get?_set_self _ hg]
              rw [modify_modify_const rest x h, List.set_set]
      | null => simp [walkPath, stepInto] at h
      | bool b => simp [walkPath, stepInto] at h
      | num n => simp [walkPath, stepInto] at h
      | str sc => simp [walkPath, stepInto] at h

theorem walk_append_one : ∀ (p : List Step) (v : JValue) (s : Step),
    walkPath v (p ++ [s]) = (walkPath v p).bind (fun c => stepInto c s)
  | [], v, s => by
      simp only [List.nil_append, walkPath, Option.bind]
      rcases stepInto v s with _ | c <;> simp [walkPath]
  | s0 :: rest, v, s => by
      simp only [List.cons_append, walkPath]
      rcases stepInto v s0 with _ | c
      · rfl
      · exact walk_append_one rest c s

theorem jsIndexOf_eq_none_iff (k : JValue) (l : List JValue) :
    jsIndexOf k l = none ↔ ¬ k ∈ l := by
  induction l with
  | nil => simp [jsIndexOf]
  | cons x l ih =>
      by_cases hx : x = k
      · subst hx
        simp [jsIndexOf, (jvalue_beq_iff x x).mpr rfl]
      · have hb : (x == k) = false := by
          rcases hb' : x == k with _ | _
          · rfl
          · exact absurd ((jvalue_beq_iff x k).mp hb') hx
        have hkx : ¬ k = x := fun hkx => hx hkx.symm
        simp [jsIndexOf, hb, ih, hkx]

theorem jsIndexOf_erase_none : ∀ (l : List JValue) (k : JValue) (i : Nat),
    l.Nodup → jsIndexOf k l = some i → jsIndexOf k (l.eraseIdx i) = none
  | [], k, i, _, h => by simp [jsIndexOf] at h
  | x :: rest, k, i, hnd, h => by
      rcases hb : x == k with _ | _
      · rw [jsIndexOf, hb] at h
        simp only [Bool.false_eq_true, if_false] at h
        rcases Option.map_eq_some'.mp h with ⟨j, hj, rfl⟩
        have hrest : jsIndexOf k (rest.eraseIdx j) = none :=
          jsIndexOf_erase_none rest k j (List.Nodup.of_cons hnd) hj
        simpa [List.eraseIdx, jsIndexOf, hb] using hrest
      · rw [jsIndexOf, hb] at h
        simp only [if_true] at h
        cases h
        have hx : x = k := (jvalue_beq_iff x k).mp hb
        subst hx
        have : ¬ x ∈ rest := (List.nodup_cons.mp hnd).1
        simpa [List.eraseIdx, jsIndexOf_eq_none_iff] using this

/-!
## Claims about the parse cascade (C1, C7, C10)
-/

theorem jsErrMessage_ne_empty (m : String) : jsErrMessage m ≠ "" := by
  unfold jsErrMessage
  by_cases h : m = ""
  · rw [if_pos h]
    decide
  · rw [if_neg h]
    exact h

/-- A valid idle controller state used to instantiate hypotheses: the
Document `a: 1` parsed from YAML text, no error, flag disarmed. -/
def sIdle : SyncState :=
  { specString := "a: 1"
  , parsedSpec := some (.obj [("a", .num 1)])
  , parseError := none
  , specFormat := .yaml
  , isUpdatingFromView := false
  , pending := none }

/-- C7: parsing tries strict JSON first and attempts YAML only if the
JSON parse fails; on success of either, the Format tag records which
syntax succeeded (json when JSON.parse succeeds, yaml when only the
YAML branch succeeds, i.e. `yaml.load` returns a JavaScript object —
see C10 for the non-object case), the Document snapshot is replaced
with the parsed value, and the error is cleared.  The first conjunct is
stated for an arbitrary YAML outcome, which is exactly the fact that
the YAML parser is not consulted when JSON succeeds. -/
theorem c7_parse_order_and_format_tag :
    (∀ (s : SyncState) (v : JValue) (yres : Except String JValue),
        s.isUpdatingFromView = false →
        parseSpecStep s (some v) yres =
          { s with parsedSpec := some v, parseError := none, specFormat := .json })
    ∧ (∀ (s : SyncState) (v : JValue),
        s.isUpdatingFromView = false →
        isJsObject v = true →
        parseSpecStep s none (.ok v) =
          { s with parsedSpec := some v, parseError := none, specFormat := .yaml }) := by
  constructor
  · intro s v yres hf
    simp [parseSpecStep, hf, applyParse]
  · intro s v hf hobj
    simp [parseSpecStep, hf, applyParse, hobj]

/-- Witness for C7 at concrete inputs. -/
theorem c7_witness :
    parseSpecStep sIdle (some (JValue.num 5)) (.error "x") =
      { sIdle with parsedSpec := some (JValue.num 5), parseError := none,
                   specFormat := .json }
    ∧ parseSpecStep sIdle none (.ok (JValue.obj [])) =
      { sIdle with parsedSpec := some (JValue.obj []), parseError := none,
                   specFormat := .yaml } :=
  ⟨c7_parse_order_and_format_tag.1 sIdle (JValue.num 5) (.error "x") rfl,
   c7_parse_order_and_format_tag.2 sIdle (JValue.obj []) rfl rfl⟩

/-- C10: the object-root requirement is enforced only on the YAML branch:
a text that strict-JSON-parses to a non-object (JSON.parse "5" gives
the number 5) replaces the Document with that scalar, tags the format
json and surfaces no error, while the same non-object content accepted
only by the YAML parser (yaml.load "5" gives the number 5, and
`typeof 5 !== 'object'`) is rejected with the fixed message. -/
theorem c10_object_check_yaml_branch_only :
    (∀ (s : SyncState) (v : JValue) (yres : Except String JValue),
        s.isUpdatingFromView = false →
        isJsObject v = false →
        parseSpecStep s (some v) yres =
          { s with parsedSpec := some v, parseError := none, specFormat := .json })
    ∧ (∀ (s : SyncState) (v : JValue),
        s.isUpdatingFromView = false →
        isJsObject v = false →
        parseSpecStep s none (.ok v) =
          { s with parsedSpec := none,
                   parseError := some "Invalid YAML: content must be an object." }) := by
  constructor
  · intro s v yres hf _
    simp [parseSpecStep, hf, applyParse]
  · intro s v hf hobj
    simp [parseSpecStep, hf, applyParse, hobj]

/-- Witness for C10 at the scalar 5 (the text "5" of the claim). -/
theorem c10_witness :
    parseSpecStep sIdle (some (JValue.num 5)) (.error "irrelevant") =
      { sIdle with parsedSpec := some (JValue.num 5), parseError := none,
                   specFormat := .json }
    ∧ parseSpecStep sIdle none (.ok (JValue.num 5)) =
      { sIdle with parsedSpec := none,
                   parseError := some "Invalid YAML: content must be an object." } :=
  ⟨c10_object_check_yaml_branch_only.1 sIdle (JValue.num 5) (.error "irrelevant") rfl rfl,
   c10_object_check_yaml_branch_only.2 sIdle (JValue.num 5) rfl rfl⟩

/-- The prior valid Document of the C1 counterexample. -/
def d0C1 : JValue := .obj [("a", .num 1)]

/-- A controller state holding the valid Document `d0C1` right after the
user typed the text "[", which neither parser accepts: JSON.parse "["
throws, and yaml.load "[" throws "unexpected end of the stream within a
flow collection". -/
def sC1 : SyncState :=
  { specString := "["
  , parsedSpec := some d0C1
  , parseError := none
  , specFormat := .json
  , isUpdatingFromView := false
  , pending := none }

/-- C1 counterexample: when both parsers fail, the code does NOT leave
the Document at its previous valid value — `setParsedSpec(null)` clears
it (the viewer then shows the invalid-spec placeholder), refuting the
claim at this concrete input. -/
theorem c1_counterexample :
    sC1.parsedSpec = some d0C1
    ∧ (parseSpecStep sC1 none
        (.error "unexpected end of the stream within a flow collection")).parsedSpec
        = none
    ∧ (parseSpecStep sC1 none
        (.error "unexpected end of the stream within a flow collection")).parsedSpec
        ≠ sC1.parsedSpec
    ∧ (parseSpecStep sC1 none
        (.error "unexpected end of the stream within a flow collection")).parseError
        = some "unexpected end of the stream within a flow collection" :=
  ⟨rfl, rfl, by simp [parseSpecStep, applyParse, sC1, jsErrMessage], rfl⟩

/-- C1 (amended): when a text edit fails to parse as both strict JSON
and YAML, the controller surfaces a non-empty error message and CLEARS
the current Document to null (it is not left at its previous valid
value); the text and the Format tag are unchanged. -/
theorem c1_amended_parse_failure_clears_document :
    ∀ (s : SyncState) (m : String),
      s.isUpdatingFromView = false →
      (parseSpecStep s none (.error m)).parsedSpec = none
      ∧ (∃ e, (parseSpecStep s none (.error m)).parseError = some e ∧ e ≠ "")
      ∧ (parseSpecStep s none (.error m)).specFormat = s.specFormat
      ∧ (parseSpecStep s none (.error m)).specString = s.specString := by
  intro s m hf
  refine ⟨?_, ⟨jsErrMessage m, ?_, jsErrMessage_ne_empty m⟩, ?_, ?_⟩ <;>
    simp [parseSpecStep, hf, applyParse]

/-- Witness for the amended C1 at a concrete failing text. -/
theorem c1_amended_witness :
    (parseSpecStep sC1 none (.error "boom")).parsedSpec = none
    ∧ (∃ e, (parseSpecStep sC1 none (.error "boom")).parseError = some e ∧ e ≠ "")
    ∧ (parseSpecStep sC1 none (.error "boom")).specFormat = sC1.specFormat
    ∧ (parseSpecStep sC1 none (.error "boom")).specString = sC1.specString :=
  c1_amended_parse_failure_clears_document sC1 "boom" rfl

/-!
## Claim C3: the suppression flag

The external behaviours below instantiate `Parsers` consistently with
the real libraries on every string the trace exercises: none of the
texts "a: 1", "a: 2", "a: 1\n", "a: 2\n" is valid JSON (JSON.parse
throws on all of them), `yaml.load` parses each to the corresponding
one-key mapping, and `yaml.dump` of those mappings produces the
newline-terminated forms.
-/

/-- The mapping `a: 1`. -/
def docA1 : JValue := .obj [("a", .num 1)]

/-- The mapping `a: 2`. -/
def docA2 : JValue := .obj [("a", .num 2)]

/-- Concrete parser/serializer behaviours for the C3 trace. -/
def P0 : Parsers :=
  { jsonParse := fun _ => none
  , yamlLoad := fun t =>
      if t = "a: 1" then .ok docA1
      else if t = "a: 2" then .ok docA2
      else if t = "a: 1\n" then .ok docA1
      else if t = "a: 2\n" then .ok docA2
      else .error "unused"
  , dumpJson := fun _ => ""
  , dumpYaml := fun v =>
      if v = docA1 then "a: 1\n" else if v = docA2 then "a: 2\n" else "" }

/-- C3 counterexample: a genuine user edit following an echo is NOT
always parsed.  From the idle state holding `a: 1`, a form edit changes
the Document to `a: 2`; the serialize effect arms the flag and publishes
the echo `a: 2` + newline, scheduling its parse; before the coalescing
window elapses the user types the valid text "a: 1", which replaces the
pending echo; when the window elapses, the armed flag consumes the
user's text without re-parsing.  Afterwards nothing is pending, the flag
is clear, the editor shows "a: 1" but the Document remains `a: 2`: the
genuine edit was silently swallowed. -/
theorem c3_counterexample :
    (runM P0 sIdle [.view (fun _ => docA2), .edit "a: 1", .fire]).parsedSpec = some docA2
    ∧ (runM P0 sIdle [.view (fun _ => docA2), .edit "a: 1", .fire]).specString = "a: 1"
    ∧ (runM P0 sIdle [.view (fun _ => docA2), .edit "a: 1", .fire]).pending = none
    ∧ (runM P0 sIdle [.view (fun _ => docA2), .edit "a: 1", .fire]).isUpdatingFromView
        = false
    ∧ P0.yamlLoad "a: 1" = .ok docA1
    ∧ P0.jsonParse "a: 1" = none
    ∧ docA1 ≠ docA2 :=
  ⟨rfl, rfl, rfl, rfl, rfl, rfl, by decide⟩

/-- C3 (amended): the suppression flag is one-shot — the first parser
invocation that observes it armed consumes that invocation without
re-parsing (Document, error, format and text unchanged) and clears the
flag at that consumption, so the flag never remains armed across two
parser invocations; however the consumed notification is whichever text
is pending when the coalescing window elapses, so a genuine user edit
that replaces the pending echo within the window is itself consumed
without being parsed (the counterexample exhibits this). -/
theorem c3_amended_flag_one_shot :
    ∀ (P : Parsers) (s : SyncState) (t : String),
      s.pending = some t →
      s.isUpdatingFromView = true →
      stepM P s .fire = { s with pending := none, isUpdatingFromView := false } := by
  intro P s t hp hf
  simp [stepM, hp, hf]

/-- The state right after the echo of the C3 trace, with the flag armed
and the echo pending. -/
def sArmed : SyncState :=
  { specString := "a: 2\n"
  , parsedSpec := some docA2
  , parseError := none
  , specFormat := .yaml
  , isUpdatingFromView := true
  , pending := some "a: 2\n" }

/-- Witness for the amended C3 at a concrete armed state. -/
theorem c3_amended_witness :
    stepM P0 sArmed .fire = { sArmed with pending := none, isUpdatingFromView := false } :=
  c3_amended_flag_one_shot P0 sArmed "a: 2\n" rfl rfl

/-!
## Claim C8: the resolver contract
-/

/-- C8: `resolveRef` returns NotFound (null) for every reference string
without the internal root-relative prefix `#/`; for every reference
with the prefix it returns the node obtained by splitting the remainder
on `/` and performing a root-relative lodash get from the root (null
when that location is absent — `lget` returning `none` is exactly that
case).  Resolution is a pure read: the embedding is a function of the
document that returns only the found node, so it cannot mutate the
document.  (The split list is never empty — JavaScript
`"".split('/')` is `[""]` — so the empty-path quirk of `lget` is not
in play.) -/
theorem c8_resolveRef_contract :
    (∀ (spec : JValue) (ref : String),
        ¬ (jsStartsWith ref "#/" = true) → resolveRef spec ref = none)
    ∧ (∀ (spec : JValue) (ref : String),
        jsStartsWith ref "#/" = true →
        resolveRef spec ref =
          lget spec ((jsSplitChar (jsDrop2 ref) '/').map Step.key)) := by
  constructor
  · intro spec ref h
    simp [resolveRef, h]
  · intro spec ref h
    simp [resolveRef, refSteps, h]

/-- A small document containing `components.schemas.Pet`, mirroring the
resolver test of spec section 8. -/
def petDoc : JValue :=
  .obj [("components", .obj [("schemas", .obj [("Pet",
    .obj [("type", .str "object")])])])]

/-- Witness for C8: a prefix-less reference is rejected, and a
root-relative reference is resolved by the split-and-get algorithm,
evaluated on `petDoc`. -/
theorem c8_witness :
    resolveRef petDoc "http://x" = none
    ∧ resolveRef petDoc "#/components/schemas/Pet" =
        lget petDoc ((jsSplitChar (jsDrop2 "#/components/schemas/Pet") '/').map Step.key)
    ∧ lget petDoc ((jsSplitChar (jsDrop2 "#/components/schemas/Pet") '/').map Step.key) =
        some (.obj [("type", .str "object")]) :=
  ⟨c8_resolveRef_contract.1 petDoc "http://x" (by decide),
   c8_resolveRef_contract.2 petDoc "#/components/schemas/Pet" (by decide),
   by decide⟩

/-!
## Claim C9: circular reference detection and termination
-/

theorem schemaView_ref_visited (spec schema : JValue) (visited : List String)
    (r : String) (h : getRef schema = some r) (hv : visited.contains r = true) :
    schemaView spec schema visited = .circular r := by
  rw [schemaView]
  split
  · rename_i heq
    rw [h] at heq
    cases heq
  · rename_i r' heq
    rw [h] at heq
    cases heq
    have hm : r ∈ visited := List.elem_iff.mp hv
    simp [hm]

theorem schemaView_ref_chase (spec schema node : JValue) (visited : List String)
    (r : String) (h : getRef schema = some r) (hv : visited.contains r = false)
    (hr : resolveRef spec r = some node) :
    schemaView spec schema visited = schemaView spec node (visited ++ [r]) := by
  rw [schemaView]
  split
  · rename_i heq
    rw [h] at heq
    cases heq
  · rename_i r' heq
    rw [h] at heq
    cases heq
    have hng : ¬ (visited.contains r = true) := by
      rw [hv]
      exact Bool.false_ne_true
    rw [dif_neg hng]
    split
    · rename_i heq2
      rw [hr] at heq2
      cases heq2
    · rename_i node' heq2
      rw [hr] at heq2
      cases heq2
      rfl

/-- A document whose schema at `a` refers to itself. -/
def specSelf : JValue := .obj [("a", .obj [("$ref", .str "#/a")])]

/-- C9: a `$ref` already in the visited set of the current resolution
chain renders the Circular notice — a terminal constructor distinct
from the NotFound (invalid reference) one — without recursing further;
and because every recursive step extends the visited set with the
current reference, resolution terminates on every input: `schemaView`
is a total function (defined by well-founded recursion on the unvisited
strings of the document), and the third conjunct runs it on a
self-referencing chain, where it stops with Circular after one step
instead of recursing unboundedly. -/
theorem c9_circular_terminal_and_termination :
    (∀ (spec schema : JValue) (visited : List String) (r : String),
        getRef schema = some r →
        visited.contains r = true →
        schemaView spec schema visited = .circular r)
    ∧ (∀ (r r' : String), RenderResult.circular r ≠ RenderResult.invalidRef r')
    ∧ schemaView specSelf (JValue.obj [("$ref", JValue.str "#/a")]) [] =
        .circular "#/a" := by
  refine ⟨?_, ?_, ?_⟩
  · intro spec schema visited r h hv
    exact schemaView_ref_visited spec schema visited r h hv
  · intro r r' hc
    cases hc
  · have hres : resolveRef specSelf "#/a" =
        some (JValue.obj [("$ref", JValue.str "#/a")]) := by decide
    have e1 : schemaView specSelf (JValue.obj [("$ref", JValue.str "#/a")]) [] =
        schemaView specSelf (JValue.obj [("$ref", JValue.str "#/a")]) ["#/a"] :=
      schemaView_ref_chase specSelf _ _ [] "#/a" rfl rfl hres
    have e2 : schemaView specSelf (JValue.obj [("$ref", JValue.str "#/a")]) ["#/a"] =
        .circular "#/a" :=
      schemaView_ref_visited specSelf _ ["#/a"] "#/a" rfl rfl
    exact e1.trans e2

/-- Witness for C9 at a concrete visited chain. -/
theorem c9_witness :
    schemaView specSelf (JValue.obj [("$ref", JValue.str "#/x")]) ["#/x"] =
      .circular "#/x" :=
  c9_circular_terminal_and_termination.1 specSelf
    (JValue.obj [("$ref", JValue.str "#/x")]) ["#/x"] "#/x" rfl rfl

/-!
## Claim C2: AddItem on an absent path
-/

/-- C2 (evaluation at the failing input): the claim (and spec section 8)
say AddItem on an absent path with a non-sequence item, followed by get,
returns a one-element sequence containing the item exactly once.  The
code first `set`s the wrapped item `[item]` at the path, then re-`get`s
the collection, finds an array, and falls into the unconditional
`collection.push(item)` — appending the item a second time.  The result
is the two-element sequence `["s", "s"]`, not `["s"]`. -/
theorem c2_code_adds_item_twice :
    handleAddItem (JValue.obj [("a", JValue.num 1)]) [Step.key "b"] (JValue.str "s")
      = some (JValue.obj [("a", JValue.num 1),
                          ("b", JValue.arr [JValue.str "s", JValue.str "s"])])
    ∧ lget (JValue.obj [("a", JValue.num 1),
                        ("b", JValue.arr [JValue.str "s", JValue.str "s"])])
        [Step.key "b"]
      = some (JValue.arr [JValue.str "s", JValue.str "s"]) := by
  constructor <;> decide

/-!
## Claim C6: AddItem into an existing mapping
-/

/-- Convenience form of `lget` on a nonempty path. -/
theorem lget_of_cons (v : JValue) (s : Step) (p : List Step) :
    lget v (s :: p) = walkPath v (s :: p) := rfl

/-- C6: when the collection at the path is an existing mapping, AddItem
merges exactly one key/value pair of the payload — the first entry,
whatever further entries the payload carries — by property assignment,
which silently overwrites an existing same-named key in place
(last-write-wins, witnessed by the final conjunct: the key reads back
as the merged value); and the operation returns a document (never the
TypeError case) for every multi-entry or duplicate-key mapping
payload. -/
theorem c6_additem_mapping_merges_first_entry :
    ∀ (d : JValue) (p : List Step) (m : List (String × JValue)) (k : String)
      (v : JValue) (rest : List (String × JValue)),
      lget d p = some (.obj m) →
      ∃ d', handleAddItem d p (.obj ((k, v) :: rest)) = some d'
        ∧ lget d' p = some (.obj (setField m k v))
        ∧ lget d' (p ++ [Step.key k]) = some v := by
  intro d p m k v rest hget
  cases p with
  | nil => simp [lget] at hget
  | cons s p' =>
      have hwalk : walkPath d (s :: p') = some (.obj m) := hget
      refine ⟨modifyAt d (s :: p') (fun _ => .obj (setField m k v)), ?_, ?_, ?_⟩
      · simp [handleAddItem, hget, jsFirstEntry]
      · rw [lget_of_cons]
        exact walk_modify (s :: p') _ hwalk
      · show walkPath (modifyAt d (s :: p') (fun _ => .obj (setField m k v)))
            ((s :: p') ++ [Step.key k]) = some v
        rw [walk_append_one, walk_modify (s :: p') _ hwalk]
        simp [stepInto, keyOfStep, lookup_setField_self]

/-- The concrete document of the C6 witness: a mapping collection at
`coll` already holding the key `x`. -/
def dC6 : JValue := .obj [("coll", .obj [("x", .num 1)])]

/-- Witness for C6 with a payload that is both multi-entry and
duplicate-key: the first entry `x = 2` overwrites the existing `x`,
the second entry `y = 3` is ignored, and no error is raised. -/
theorem c6_witness :
    ∃ d', handleAddItem dC6 [Step.key "coll"]
        (JValue.obj [("x", JValue.num 2), ("y", JValue.num 3)]) = some d'
      ∧ lget d' [Step.key "coll"] =
          some (JValue.obj (setField [("x", JValue.num 1)] "x" (JValue.num 2)))
      ∧ lget d' ([Step.key "coll"] ++ [Step.key "x"]) = some (JValue.num 2) :=
  c6_additem_mapping_merges_first_entry dC6 [Step.key "coll"]
    [("x", JValue.num 1)] "x" (JValue.num 2) [("y", JValue.num 3)] rfl

/-!
## Claim C5: RemoveItem
-/

theorem jsSplice1_at (xs : List JValue) (i : Nat) (h : i < xs.length) :
    jsSplice1 xs (some (i : Int)) = xs.take i ++ xs.drop (i + 1) := by
  simp only [jsSplice1]
  have h0 : ¬ ((i : Int) < 0) := by omega
  rw [if_neg h0]
  have hmin : min (i : Int) (xs.length : Int) = (i : Int) := by
    apply min_eq_left
    exact_mod_cast Nat.le_of_lt h
  rw [hmin]
  simp

theorem get?_take_drop {α : Type} : ∀ (xs : List α) (i j : Nat), i < j →
    (xs.take i ++ xs.drop (i + 1)).get? (j - 1) = xs.get? j
  | [], i, j, hij => by simp
  | a :: t, 0, j, hij => by
      cases j with
      | zero => omega
      | succ j' => simp
  | a :: t, i' + 1, j, hij => by
      cases j with
      | zero => omega
      | succ j' =>
          have hij' : i' < j' := by omega
          cases j' with
          | zero => omega
          | succ j'' =>
              have ih := get?_take_drop t i' (j'' + 1) hij'
              simp only [List.take, List.drop, List.cons_append,
                Nat.add_sub_cancel, List.get?_cons_succ]
              simpa [Nat.add_sub_cancel] using ih

/-- C5 (amended): RemoveItem splits the path into parent plus last step.
When the parent path is nonempty and addresses a sequence, exactly one
element is removed at the numeric index and every later element shifts
down by one (a path to index j > i afterwards addresses the former
element j as j-1).  When the parent path is nonempty and addresses a
mapping, the key is deleted.  When the parent does not resolve the
operation is a no-op, never an error — and because lodash `get` with an
empty path returns undefined, this no-op case also covers every
single-step path: a top-level key can never be removed by this
operation, contrary to the original claim (see the counterexample). -/
theorem c5_removeitem_amended :
    (∀ (d : JValue) (p : List Step) (xs : List JValue) (i : Nat),
        lget d p = some (.arr xs) → i < xs.length →
        lget (handleRemoveItemByPath d (p ++ [Step.idx i])) p =
          some (.arr (xs.take i ++ xs.drop (i + 1)))
        ∧ ∀ j, i < j →
            lget (handleRemoveItemByPath d (p ++ [Step.idx i]))
                (p ++ [Step.idx (j - 1)]) =
              lget d (p ++ [Step.idx j]))
    ∧ (∀ (d : JValue) (p : List Step) (m : List (String × JValue)) (k : String),
        lget d p = some (.obj m) →
        lget (handleRemoveItemByPath d (p ++ [Step.key k])) p =
          some (.obj (eraseField m k))
        ∧ lget (handleRemoveItemByPath d (p ++ [Step.key k])) (p ++ [Step.key k]) =
            none)
    ∧ (∀ (d : JValue) (path : List Step),
        lget d path.dropLast = none → handleRemoveItemByPath d path = d) := by
  refine ⟨?_, ?_, ?_⟩
  · intro d p xs i hget hi
    cases p with
    | nil => simp [lget] at hget
    | cons s p' =>
        have hwalk : walkPath d (s :: p') = some (.arr xs) := hget
        have hres : handleRemoveItemByPath d ((s :: p') ++ [Step.idx i]) =
            modifyAt d (s :: p')
              (fun _ => .arr (xs.take i ++ xs.drop (i + 1))) := by
          simp only [handleRemoveItemByPath, List.getLast?_concat,
            List.dropLast_concat, hget, jsNumberOfStep,
            jsSplice1_at xs i hi]
        constructor
        · rw [hres, lget_of_cons]
          exact walk_modify _ _ hwalk
        · intro j hij
          rw [hres]
          show walkPath
              (modifyAt d (s :: p') (fun _ => .arr (xs.take i ++ xs.drop (i + 1))))
              ((s :: p') ++ [Step.idx (j - 1)]) =
            walkPath d ((s :: p') ++ [Step.idx j])
          rw [walk_append_one, walk_append_one,
            walk_modify (s :: p') _ hwalk, hwalk]
          simp only [Option.bind_some, stepInto, arrStepIdx]
          exact get?_take_drop xs i j hij
  · intro d p m k hget
    cases p with
    | nil => simp [lget] at hget
    | cons s p' =>
        have hwalk : walkPath d (s :: p') = some (.obj m) := hget
        have hres : handleRemoveItemByPath d ((s :: p') ++ [Step.key k]) =
            modifyAt d (s :: p') (fun _ => .obj (eraseField m k)) := by
          simp only [handleRemoveItemByPath, List.getLast?_concat,
            List.dropLast_concat, hget, keyOfStep]
        constructor
        · rw [hres, lget_of_cons]
          exact walk_modify _ _ hwalk
        · rw [hres]
          show walkPath (modifyAt d (s :: p') (fun _ => .obj (eraseField m k)))
              ((s :: p') ++ [Step.key k]) = none
          rw [walk_append_one, walk_modify (s :: p') _ hwalk]
          simp [stepInto, keyOfStep, lookup_eraseField]
  · intro d path h
    rcases hlast : path.getLast? with _ | st
    · simp [handleRemoveItemByPath, hlast]
    · simp [handleRemoveItemByPath, hlast, h]

/-- C5 counterexample: for the single-step path ["a"] the parent is the
document root, a mapping, so the claim requires the key "a" to be
deleted; but the code computes the parent with lodash `get(doc, [])`,
which is undefined, so the operation is a no-op and the key survives. -/
theorem c5_counterexample :
    handleRemoveItemByPath (JValue.obj [("a", JValue.num 1)]) [Step.key "a"]
      = JValue.obj [("a", JValue.num 1)]
    ∧ handleRemoveItemByPath (JValue.obj [("a", JValue.num 1)]) [Step.key "a"]
      ≠ JValue.obj [] := by
  constructor <;> decide

/-- The concrete document of the C5 witness: a three-element sequence at
`l` and a two-key mapping at `m`. -/
def dC5 : JValue :=
  .obj [("l", .arr [.num 10, .num 20, .num 30]),
        ("m", .obj [("x", .num 1), ("y", .num 2)])]

/-- Witness for the amended C5: removing index 0 of the sequence leaves
its tail and shifts index 2 to index 1; removing key `x` of the mapping
deletes it; a single-step path (absent parent) is a no-op. -/
theorem c5_witness :
    lget (handleRemoveItemByPath dC5 ([Step.key "l"] ++ [Step.idx 0])) [Step.key "l"] =
      some (JValue.arr ([JValue.num 10, JValue.num 20, JValue.num 30].take 0 ++
        [JValue.num 10, JValue.num 20, JValue.num 30].drop 1))
    ∧ lget (handleRemoveItemByPath dC5 ([Step.key "l"] ++ [Step.idx 0]))
        ([Step.key "l"] ++ [Step.idx (2 - 1)]) = lget dC5 ([Step.key "l"] ++ [Step.idx 2])
    ∧ lget (handleRemoveItemByPath dC5 ([Step.key "m"] ++ [Step.key "x"])) [Step.key "m"] =
        some (JValue.obj (eraseField [("x", JValue.num 1), ("y", JValue.num 2)] "x"))
    ∧ lget (handleRemoveItemByPath dC5 ([Step.key "m"] ++ [Step.key "x"]))
        ([Step.key "m"] ++ [Step.key "x"]) = none
    ∧ handleRemoveItemByPath dC5 [Step.key "zzz"] = dC5 :=
  ⟨(c5_removeitem_amended.1 dC5 [Step.key "l"] _ 0 rfl (by decide)).1,
   (c5_removeitem_amended.1 dC5 [Step.key "l"] _ 0 rfl (by decide)).2 2 (by decide),
   (c5_removeitem_amended.2.1 dC5 [Step.key "m"] _ "x" rfl).1,
   (c5_removeitem_amended.2.1 dC5 [Step.key "m"] _ "x" rfl).2,
   c5_removeitem_amended.2.2 dC5 [Step.key "zzz"] rfl⟩

/-!
## Claim C4: ToggleRequired
-/

theorem toggled_stable (xs : List JValue) (k : String) (b : Bool)
    (hnd : xs.Nodup) : toggledList (toggledList xs k b) k b = toggledList xs k b := by
  cases b with
  | false =>
      rcases hidx : jsIndexOf (JValue.str k) xs with _ | i
      · simp [toggledList, hidx]
      · have h1 : toggledList xs k false = xs.eraseIdx i := by
          simp [toggledList, hidx]
        have h2 : jsIndexOf (JValue.str k) (xs.eraseIdx i) = none :=
          jsIndexOf_erase_none xs (JValue.str k) i hnd hidx
        rw [h1]
        simp [toggledList, h2]
  | true =>
      rcases hidx : jsIndexOf (JValue.str k) xs with _ | i
      · have h1 : toggledList xs k true = xs ++ [JValue.str k] := by
          simp [toggledList, hidx]
        have hmem : JValue.str k ∈ xs ++ [JValue.str k] := by simp
        rcases hidx2 : jsIndexOf (JValue.str k) (xs ++ [JValue.str k]) with _ | j
        · exact absurd ((jsIndexOf_eq_none_iff _ _).mp hidx2) (by simpa using hmem)
        · rw [h1]
          simp [toggledList, hidx2]
      · simp [toggledList, hidx]

theorem toggled_empty_b_false (xs : List JValue) (k : String) (b : Bool)
    (h : (toggledList xs k b).isEmpty = true) : b = false := by
  cases b with
  | false => rfl
  | true =>
      exfalso
      rcases hidx : jsIndexOf (JValue.str k) xs with _ | i <;>
        simp only [toggledList, hidx] at h
      · simp at h
      · cases xs with
        | nil => simp [jsIndexOf] at hidx
        | cons a t => simp at h

theorem handleToggle_required_arr (d1 : JValue) (s : Step) (p' : List Step)
    (m1 : List (String × JValue)) (ys : List JValue) (k : String) (b : Bool)
    (hw : walkPath d1 (s :: p') = some (.obj m1))
    (hreq : lookupField m1 "required" = some (.arr ys)) :
    handleToggleRequired d1 (s :: p') k b =
      some (toggleOnArray d1 (s :: p') m1 ys k b) := by
  have hl : lget d1 (s :: p') = some (JValue.obj m1) := hw
  simp [handleToggleRequired, hl, hreq, jsFalsy]

theorem handleToggle_required_none (d1 : JValue) (s : Step) (p' : List Step)
    (m1 : List (String × JValue)) (k : String) (b : Bool)
    (hw : walkPath d1 (s :: p') = some (.obj m1))
    (hreq : lookupField m1 "required" = none) :
    handleToggleRequired d1 (s :: p') k b =
      some (toggleOnArray d1 (s :: p') m1 [] k b) := by
  have hl : lget d1 (s :: p') = some (JValue.obj m1) := hw
  simp [handleToggleRequired, hl, hreq]

theorem handleToggle_required_falsy (d1 : JValue) (s : Step) (p' : List Step)
    (m1 : List (String × JValue)) (w : JValue) (k : String) (b : Bool)
    (hw : walkPath d1 (s :: p') = some (.obj m1))
    (hreq : lookupField m1 "required" = some w)
    (hf : jsFalsy w = true) :
    handleToggleRequired d1 (s :: p') k b =
      some (toggleOnArray d1 (s :: p') m1 [] k b) := by
  have hl : lget d1 (s :: p') = some (JValue.obj m1) := hw
  simp [handleToggleRequired, hl, hreq, hf]

/-- Applying `handleToggleRequired` to the output of a `toggleOnArray`
application with the same arguments changes nothing: the core of the
idempotence argument, valid when the toggled list has no duplicates. -/
theorem toggle_again (d : JValue) (s : Step) (p' : List Step)
    (m : List (String × JValue)) (xs : List JValue) (k : String) (b : Bool)
    (hwalk : walkPath d (s :: p') = some (.obj m))
    (hnd : xs.Nodup) :
    handleToggleRequired (toggleOnArray d (s :: p') m xs k b) (s :: p') k b =
      some (toggleOnArray d (s :: p') m xs k b) := by
  rcases hemp : (toggledList xs k b).isEmpty with _ | _
  · -- the toggled list is nonempty: the field is stored back
    have hm' : toggleOnArray d (s :: p') m xs k b =
        modifyAt d (s :: p')
          (fun _ => JValue.obj (setField m "required" (JValue.arr (toggledList xs k b)))) := by
      simp [toggleOnArray, hemp]
    have hw1 : walkPath
        (modifyAt d (s :: p')
          (fun _ => JValue.obj (setField m "required" (JValue.arr (toggledList xs k b)))))
        (s :: p') =
        some (JValue.obj (setField m "required" (JValue.arr (toggledList xs k b)))) :=
      walk_modify _ _ hwalk
    rw [hm']
    rw [handleToggle_required_arr _ s p' _ (toggledList xs k b) k b hw1
      (lookup_setField_self m "required" (JValue.arr (toggledList xs k b)))]
    congr 1
    -- the second toggle leaves the list unchanged and restores the same field
    simp only [toggleOnArray, toggled_stable xs k b hnd, hemp, Bool.false_eq_true,
      if_false, setField_setField]
    exact modify_modify_const (s :: p') _ hwalk
  · -- the toggled list is empty: the field was deleted, and b = false
    have hb : b = false := toggled_empty_b_false xs k b hemp
    subst hb
    have hm' : toggleOnArray d (s :: p') m xs k false =
        modifyAt d (s :: p') (fun _ => JValue.obj (eraseField m "required")) := by
      simp [toggleOnArray, hemp]
    have hw1 : walkPath
        (modifyAt d (s :: p') (fun _ => JValue.obj (eraseField m "required")))
        (s :: p') = some (JValue.obj (eraseField m "required")) :=
      walk_modify _ _ hwalk
    rw [hm']
    rw [handleToggle_required_none _ s p' _ k false hw1
      (lookup_eraseField m "required")]
    congr 1
    have hto : toggledList ([] : List JValue) k false = [] := by
      simp [toggledList, jsIndexOf]
    simp only [toggleOnArray, hto, List.isEmpty_nil, if_true,
      eraseField_of_lookup_none (lookup_eraseField m "required")]
    exact modify_modify_const (s :: p') _ hwalk

/-- The data-model invariant of spec section 3 at one schema node: the
Required-set (when present as a sequence) contains no duplicates. -/
def requiredNodupAt (d : JValue) (p : List Step) : Bool :=
  match lget d p with
  | some (JValue.obj m) =>
      match lookupField m "required" with
      | some (JValue.arr xs) => decide xs.Nodup
      | _ => true
  | _ => true

/-- C4 (amended): for every document whose Required-set at the schema
path contains no duplicate entries (the spec section 3 invariant — the
counterexample shows idempotence fails on a duplicated Required-set),
ToggleRequired is idempotent: applying it twice produces exactly the
state one application produces, including the thrown-TypeError outcomes
(`none`); and when removal empties the Required-set, the `required`
field is deleted entirely from the schema node rather than left as an
empty sequence (second conjunct). -/
theorem c4_toggle_required_amended :
    (∀ (d : JValue) (p : List Step) (k : String) (b : Bool),
        requiredNodupAt d p = true →
        (handleToggleRequired d p k b).bind
            (fun d1 => handleToggleRequired d1 p k b) =
          handleToggleRequired d p k b)
    ∧ (∀ (d : JValue) (p : List Step) (m : List (String × JValue)) (k : String),
        lget d p = some (.obj m) →
        lookupField m "required" = some (.arr [JValue.str k]) →
        ∃ d1, handleToggleRequired d p k false = some d1
          ∧ ∃ m1, lget d1 p = some (.obj m1) ∧ lookupField m1 "required" = none) := by
  constructor
  · intro d p k b hnd
    cases p with
    | nil =>
        have h1 : handleToggleRequired d [] k b = some d := by
          simp [handleToggleRequired, lget]
        simp [h1]
    | cons s p' =>
        rcases hget : lget d (s :: p') with _ | v
        · have h1 : handleToggleRequired d (s :: p') k b = some d := by
            simp [handleToggleRequired, hget]
          simp [h1]
        · have hwv : walkPath d (s :: p') = some v := hget
          cases v with
          | obj m =>
              rcases hreq : lookupField m "required" with _ | w
              · rw [handleToggle_required_none d s p' m k b hwv hreq,
                  Option.some_bind]
                exact toggle_again d s p' m [] k b hwv List.nodup_nil
              · by_cases hf : jsFalsy w = true
                · rw [handleToggle_required_falsy d s p' m w k b hwv hreq hf,
                    Option.some_bind]
                  exact toggle_again d s p' m [] k b hwv List.nodup_nil
                · have hf' : jsFalsy w = false := by
                    rcases hb : jsFalsy w with _ | _
                    · rfl
                    · exact absurd hb hf
                  cases w with
                  | arr xs =>
                      have hnd' : xs.Nodup := by
                        simp only [requiredNodupAt, hget, hreq] at hnd
                        exact of_decide_eq_true hnd
                      rw [handleToggle_required_arr d s p' m xs k b hwv hreq,
                        Option.some_bind]
                      exact toggle_again d s p' m xs k b hwv hnd'
                  | str sv =>
                      rcases hsi : jsStrIndexOf sv k with _ | i
                      · cases b with
                        | true =>
                            have h1 : handleToggleRequired d (s :: p') k true = none := by
                              simp [handleToggleRequired, hget, hreq, hf', hsi]
                            rw [h1]
                            rfl
                        | false =>
                            have h1 : handleToggleRequired d (s :: p') k false = some d := by
                              simp [handleToggleRequired, hget, hreq, hf', hsi]
                            simp [h1]
                      · cases b with
                        | true =>
                            have h1 : handleToggleRequired d (s :: p') k true = some d := by
                              simp [handleToggleRequired, hget, hreq, hf', hsi]
                            simp [h1]
                        | false =>
                            have h1 : handleToggleRequired d (s :: p') k false = none := by
                              simp [handleToggleRequired, hget, hreq, hf', hsi]
                            rw [h1]
                            rfl
                  | null => simp [jsFalsy] at hf'
                  | bool bb =>
                      cases bb with
                      | false => simp [jsFalsy] at hf'
                      | true =>
                          have h1 : handleToggleRequired d (s :: p') k b = none := by
                            simp [handleToggleRequired, hget, hreq, hf']
                          rw [h1]
                          rfl
                  | num n =>
                      have h1 : handleToggleRequired d (s :: p') k b = none := by
                        simp [handleToggleRequired, hget, hreq, hf']
                      rw [h1]
                      rfl
                  | obj m2 =>
                      have h1 : handleToggleRequired d (s :: p') k b = none := by
                        simp [handleToggleRequired, hget, hreq, hf']
                      rw [h1]
                      rfl
          | arr xs =>
              have h1 : handleToggleRequired d (s :: p') k b = some d := by
                simp [handleToggleRequired, hget]
              simp [h1]
          | null =>
              have h1 : handleToggleRequired d (s :: p') k b = some d := by
                simp [handleToggleRequired, hget]
              simp [h1]
          | bool bb =>
              have h1 : handleToggleRequired d (s :: p') k b = some d := by
                simp [handleToggleRequired, hget]
              simp [h1]
          | num n =>
              have h1 : handleToggleRequired d (s :: p') k b = some d := by
                simp [handleToggleRequired, hget]
              simp [h1]
          | str sv =>
              have h1 : handleToggleRequired d (s :: p') k b = some d := by
                simp [handleToggleRequired, hget]
              simp [h1]
  · intro d p m k hget hreq
    cases p with
    | nil => simp [lget] at hget
    | cons s p' =>
        have hwv : walkPath d (s :: p') = some (.obj m) := hget
        have hbeq : (JValue.str k == JValue.str k) = true :=
          (jvalue_beq_iff _ _).mpr rfl
        have htog : toggledList [JValue.str k] k false = [] := by
          simp [toggledList, jsIndexOf, hbeq, List.eraseIdx]
        refine ⟨toggleOnArray d (s :: p') m [JValue.str k] k false,
          handleToggle_required_arr d s p' m [JValue.str k] k false hwv hreq,
          eraseField m "required", ?_, lookup_eraseField m "required"⟩
        have hm' : toggleOnArray d (s :: p') m [JValue.str k] k false =
            modifyAt d (s :: p') (fun _ => JValue.obj (eraseField m "required")) := by
          simp [toggleOnArray, htog]
        rw [hm', lget_of_cons]
        exact walk_modify _ _ hwv

/-- A document whose Required-set carries a duplicate entry (legal JSON,
typeable in the raw-text editor, but violating the spec section 3
no-duplicates invariant). -/
def dDup : JValue :=
  .obj [("s", .obj [("required", .arr [.str "a", .str "a"])])]

/-- C4 counterexample: on a duplicated Required-set ["a","a"],
ToggleRequired(p,"a",false) once leaves ["a"] (splice removes a single
occurrence), twice deletes the field — two different Required-sets, so
the operation is not idempotent for every document as claimed. -/
theorem c4_counterexample :
    (handleToggleRequired dDup [Step.key "s"] "a" false).bind
        (fun d1 => handleToggleRequired d1 [Step.key "s"] "a" false)
      ≠ handleToggleRequired dDup [Step.key "s"] "a" false
    ∧ handleToggleRequired dDup [Step.key "s"] "a" false =
        some (.obj [("s", .obj [("required", .arr [.str "a"])])])
    ∧ (handleToggleRequired dDup [Step.key "s"] "a" false).bind
        (fun d1 => handleToggleRequired d1 [Step.key "s"] "a" false) =
      some (.obj [("s", .obj [])]) := by
  refine ⟨?_, ?_, ?_⟩ <;> decide

/-- A document with a duplicate-free Required-set for the C4 witness. -/
def dC4 : JValue :=
  .obj [("s", .obj [("required", .arr [.str "a", .str "b"])])]

/-- Witness for the amended C4: idempotence at a concrete well-formed
document, and deletion of the field when the last member is toggled
off. -/
theorem c4_witness :
    (handleToggleRequired dC4 [Step.key "s"] "a" true).bind
        (fun d1 => handleToggleRequired d1 [Step.key "s"] "a" true)
      = handleToggleRequired dC4 [Step.key "s"] "a" true
    ∧ ∃ d1, handleToggleRequired
          (JValue.obj [("s", JValue.obj [("required", JValue.arr [JValue.str "a"])])])
          [Step.key "s"] "a" false = some d1
        ∧ ∃ m1, lget d1 [Step.key "s"] = some (.obj m1)
            ∧ lookupField m1 "required" = none :=
  ⟨c4_toggle_required_amended.1 dC4 [Step.key "s"] "a" true (by decide),
   c4_toggle_required_amended.2
     (JValue.obj [("s", JValue.obj [("required", JValue.arr [JValue.str "a"])])])
     [Step.key "s"] [("required", JValue.arr [JValue.str "a"])] "a" rfl rfl⟩
